import Mathlib

/-!
Verification of the `dv_midterm` topic-modeling pipeline
(`src/lda_model.py`, `src/doc2vec_model.py`).

The Python code is glue around the gensim library.  We embed the
repository's own code faithfully:

* the gensim library surface used by the scripts is an abstract
  interface (`GensimLib`, `TrainedLda`, `Dict`): its training and
  inference routines are opaque function fields, since the repository
  only calls them;
* the repository's own loops (`getLDATopicDistMatrix`'s sparse-to-dense
  fill, `getDataHayle`'s filter loop, `create_tagged_documents`'s tag
  counter, `sentences_chart`'s color lookup) are translated
  line-by-line;
* a Python `IndexError` (numpy/list indexing out of range) is modelled
  by `Option`: `none` means the script dies with an uncaught exception;
* numpy float64 proportions are modelled by `ℚ`; the claims under study
  are about placement, zeros, ranges and order, not float rounding.
-/

set_option autoImplicit false
set_option linter.unusedVariables false

/-- A gensim `Dictionary` (`corpora.Dictionary`) as the repository uses
it: it only ever calls `doc2bow`, mapping a token list to a sparse
bag-of-words vector of `(term id, count)` pairs. -/
structure Dict where
  doc2bow : List String → List (Nat × Nat)

/-- A trained gensim LDA model as `lda_model.py` uses it:
`num_topics` is the `.num_topics` attribute, and `docTopics doc` is the
per-document inference result `lda_model[doc][0]` (the list of
`(topic id, proportion)` pairs; with `per_word_topics=True` the
subscript `[0]` selects the topic-proportion component). -/
structure TrainedLda where
  num_topics : Nat
  docTopics : List (Nat × Nat) → List (Nat × ℚ)

/-- The keyword arguments `lda_model.py` line 97-105 passes to
`gensim.models.ldamodel.LdaModel`.  `alphaAuto` models `alpha='auto'`. -/
structure LdaParams where
  num_topics : Nat
  random_state : Nat
  update_every : Nat
  chunksize : Nat
  passes : Nat
  alphaAuto : Bool
  per_word_topics : Bool

/-- The gensim calls `lda_model.py` makes, as an abstract interface:
`dictionaryOf` is `corpora.Dictionary(data)` and `trainLda` is the
`LdaModel(...)` training call.  Both are opaque library routines; the
library documents training as a deterministic function of its
arguments once `random_state` is fixed, which is what a function field
expresses. -/
structure GensimLib where
  dictionaryOf : List (List String) → Dict
  trainLda : LdaParams → List (List (Nat × Nat)) → Dict → TrainedLda

/-- `buildModel` (`lda_model.py` lines 84-106): build the dictionary,
the term-document-frequency corpus (one `doc2bow` per document, in
order), train the LDA model with the hard-coded hyperparameters, and
return all three. -/
def buildModel (g : GensimLib) (data : List (List String)) :
    TrainedLda × List (List (Nat × Nat)) × Dict :=
  let id2word := g.dictionaryOf data
  let corpus := data.map id2word.doc2bow
  let lda_model := g.trainLda ⟨12, 100, 1, 100, 10, true, true⟩ corpus id2word
  (lda_model, corpus, id2word)

/-- The inner loop of `getLDATopicDistMatrix` (`lda_model.py` lines
346-348): starting from `topicScore = np.zeros(num_topics)`, execute
`topicScore[tp] = score` for each `(tp, score)` pair in order.  numpy
raises `IndexError` when `tp` is out of range, hence `none`. -/
def fillRowAux : List ℚ → List (Nat × ℚ) → Option (List ℚ)
  | v, [] => some v
  | v, (tp, score) :: rest =>
    if tp < v.length then fillRowAux (v.set tp score) rest else none

/-- One row of the topic distribution matrix: the zero vector of length
`K` overwritten by the sparse inference result. -/
def fillRow (K : Nat) (pairs : List (Nat × ℚ)) : Option (List ℚ) :=
  fillRowAux (List.replicate K 0) pairs

/-- `for doc in corpus: ... topic_matrix.append(topicScore)` — an
explicit effectful map over the corpus, `none` as soon as one row
raises. -/
def optionMapList {α β : Type} (f : α → Option β) : List α → Option (List β)
  | [] => some []
  | a :: rest =>
    match f a, optionMapList f rest with
    | some b, some bs => some (b :: bs)
    | _, _ => none

/-- `getLDATopicDistMatrix` (`lda_model.py` lines 338-350).  The `data`
argument appears in the Python signature but never in the body; it is
kept here with a fully polymorphic type. -/
def getLDATopicDistMatrix {α : Type} (lda_model : TrainedLda)
    (corpus : List (List (Nat × Nat))) (data : α) : Option (List (List ℚ)) :=
  optionMapList (fun doc => fillRow lda_model.num_topics (lda_model.docTopics doc)) corpus

/-- A character the gensim tokenizer keeps: `gensim.utils.tokenize`
extracts maximal matches of the pattern "word character that is not a
digit", i.e. letters and underscore (ASCII here; the corpus and the
spec's examples are ASCII, on which de-accenting is the identity). -/
def isTokenChar (c : Char) : Bool :=
  c.isAlpha || c == '_'

/-- Split a character list into the maximal runs of token characters,
accumulating the current run in reverse. -/
def tokenRuns : List Char → List Char → List (List Char)
  | [], acc => if acc.isEmpty then [] else [acc.reverse]
  | c :: rest, acc =>
    if isTokenChar c then
      tokenRuns rest (c :: acc)
    else if acc.isEmpty then
      tokenRuns rest []
    else
      acc.reverse :: tokenRuns rest []

/-- The token filter of `gensim.utils.simple_preprocess`: keep tokens of
length 2 to 15 that do not start with an underscore. -/
def keepToken (cs : List Char) : Bool :=
  decide (2 ≤ cs.length) && decide (cs.length ≤ 15) && !(cs.headD ' ' == '_')

/-- Modelled from the spec: `gensim.utils.simple_preprocess(s, deacc=True)`,
the library tokenizer `sent_to_words` delegates to — lowercase the text,
de-accent (identity on ASCII), extract alphabetic tokens, and keep
those of length 2 to 15 that do not start with an underscore. -/
def simple_preprocess (s : String) : List String :=
  ((tokenRuns (s.data.map Char.toLower) []).filter keepToken).map
    (fun cs => String.mk cs)

/-- `sent_to_words` (`lda_model.py` lines 72-77): tokenize each raw
document with `gensim.utils.simple_preprocess(str(sentence), deacc=True)`
(`str` is the identity on strings). -/
def sent_to_words (sentences : List String) : List (List String) :=
  sentences.map simple_preprocess

/-- The raw record the external loader `joining_the_sheeple.fetch_data`
returns: parallel raw-text and integer-label containers (`.data` and
`.target`). -/
structure Dats where
  data : List String
  target : List Int

/-- Modelled from the spec: `joining_the_sheeple.create_new_labels`, the
external label-remapping helper — it remaps each label, one output
label per input label. -/
def create_new_labels (remap : Int → Int) (labels : List Int) : List Int :=
  labels.map remap

/-- The filter loop of `getDataHayle` (`lda_model.py` lines 62-67):
`for i in range(0, len(sentences)): if sentences[i]: data.append(sentences[i]); target.append(dats.target[i])`.
The remaining suffix of `dats.target` is threaded alongside the
sentence list so that `target[i]` is its head; Python only evaluates
`target[i]` inside the `if`, so a too-short target list raises
(`none`) exactly when a nonempty sentence is reached with no label
left. -/
def getDataLoop : List (List String) → List Int → Option (List (List String) × List Int)
  | [], _ => some ([], [])
  | s :: ss, [] =>
    if s.isEmpty then getDataLoop ss [] else none
  | s :: ss, t :: ts2 =>
    if s.isEmpty then
      getDataLoop ss ts2
    else
      match getDataLoop ss ts2 with
      | some r => some (s :: r.1, t :: r.2)
      | none => none

/-- `getDataHayle` (`lda_model.py` lines 55-69) after the external
`fetch_data` call: tokenize the raw documents, drop the empty
tokenizations together with their labels, and remap the surviving
labels. -/
def getDataHayle (remap : Int → Int) (dats : Dats) :
    Option (List (List String) × List Int) :=
  match getDataLoop (sent_to_words dats.data) dats.target with
  | some r => some (r.1, create_new_labels remap r.2)
  | none => none

/-- Stable insertion into a list sorted by proportion, descending: the
inserted element goes before the first element whose proportion is no
larger, i.e. after all strictly earlier elements of equal key —
extensionally Python's stable `sorted(..., key=lambda x: x[1], reverse=True)`. -/
def insertDesc (p : Nat × ℚ) : List (Nat × ℚ) → List (Nat × ℚ)
  | [] => [p]
  | q :: rest => if q.2 ≤ p.2 then p :: q :: rest else q :: insertDesc p rest

/-- Stable sort by proportion, descending (`sorted(topic_percs, key=lambda x: (x[1]), reverse=True)`
in `sentences_chart`, `lda_model.py` line 308). -/
def sortDesc : List (Nat × ℚ) → List (Nat × ℚ)
  | [] => []
  | p :: rest => insertDesc p (sortDesc rest)

/-- The ten entries of `matplotlib.colors.TABLEAU_COLORS`, in order:
`mycolors = [color for name, color in mcolors.TABLEAU_COLORS.items()]`
(`lda_model.py` line 291). -/
def tableauColors : List String :=
  ["#1f77b4", "#ff7f0e", "#2ca02c", "#d62728", "#9467bd",
   "#8c564b", "#e377c2", "#7f7f7f", "#bcbd22", "#17becf"]

/-- The border-rectangle color lookup of `sentences_chart`
(`lda_model.py` lines 308-310): sort the document's topic proportions
descending and index `mycolors` with the raw dominant topic id — no
modulo.  Python list indexing raises `IndexError` out of range
(`none`); an empty proportion list makes `topic_percs_sorted[0]` itself
raise. -/
def sentencesChartBorderColor (mycolors : List String)
    (topic_percs : List (Nat × ℚ)) : Option String :=
  match sortDesc topic_percs with
  | [] => none
  | p :: _ => mycolors.get? p.1

/-- A gensim `TaggedDocument`: a word list and a tag list. -/
structure TaggedDocument where
  words : List String
  tags : List Nat
deriving DecidableEq

/-- Helper for `pySplit`: collect the maximal nonwhitespace runs,
accumulating the current run in reverse. -/
def splitWs : List Char → List Char → List String
  | [], acc => if acc.isEmpty then [] else [String.mk acc.reverse]
  | c :: rest, acc =>
    if c.isWhitespace then
      if acc.isEmpty then splitWs rest [] else String.mk acc.reverse :: splitWs rest []
    else
      splitWs rest (c :: acc)

/-- Python's `line.split()`: the maximal whitespace-separated words, no
empty pieces. -/
def pySplit (s : String) : List String :=
  splitWs s.data []

/-- The loop body of `create_tagged_documents` (`doc2vec_model.py`
lines 11-18): for each line, collect its whitespace-split words into
`sentence`, emit `TaggedDocument(sentence, [i])`, increment `i`, reset
`sentence`. -/
def tagLoop : Nat → List String → List TaggedDocument
  | _, [] => []
  | i, line :: rest => ⟨pySplit line, [i]⟩ :: tagLoop (i + 1) rest

/-- `create_tagged_documents` (`doc2vec_model.py` lines 8-20): the tag
counter starts at 0. -/
def create_tagged_documents (vocabData : List String) : List TaggedDocument :=
  tagLoop 0 vocabData

/-- The gensim Doc2Vec operations the module-level script performs, in
order, as an effect trace. -/
inductive D2VOp where
  | init (vector_size min_count epochs : Nat)
  | buildVocab (docs : List TaggedDocument)
  | save (path : String)
  | load (path : String)
deriving DecidableEq

/-- The module-level script of `doc2vec_model.py` (lines 23-29):
construct the model with `vector_size=5, min_count=5, epochs=20`, build
its vocabulary from the tagged documents, save it to the hard-coded
absolute path, and immediately load it back from that same literal
path. -/
def doc2vecScript (vocabData : List String) : List D2VOp :=
  [D2VOp.init 5 5 20,
   D2VOp.buildVocab (create_tagged_documents vocabData),
   D2VOp.save "C:\\Users\\Zacha\\PycharmProjects\\dv_midterm\\d2v.model",
   D2VOp.load "C:\\Users\\Zacha\\PycharmProjects\\dv_midterm\\d2v.model"]

/-- A concrete two-topic model for evaluating the theorems on closed
inputs: inference always reports topic 0 with proportion 1. -/
def ldaW : TrainedLda :=
  ⟨2, fun _ => [(0, (1 : ℚ))]⟩

/-- A concrete one-document bag-of-words corpus for evaluating the
theorems on closed inputs. -/
def corpusW : List (List (Nat × Nat)) :=
  [[(0, 1)]]

/-- A concrete gensim instance for evaluating the theorems on closed
inputs: every token gets term id 0 and training returns `ldaW`. -/
def gensimW : GensimLib :=
  ⟨fun _ => ⟨fun toks => toks.map (fun _ => (0, 1))⟩, fun _ _ _ => ldaW⟩

/-! Helper lemmas about list updates (`topicScore[tp] = score`). -/

theorem getD_set_self (v : List ℚ) (i : Nat) (x : ℚ) (h : i < v.length) :
    (v.set i x).getD i 0 = x := by
  induction v generalizing i with
  | nil => simp at h
  | cons a l ih =>
    cases i with
    | zero => simp
    | succ n => simpa using ih n (by simpa using h)

theorem getD_set_ne (v : List ℚ) (i j : Nat) (x : ℚ) (h : i ≠ j) :
    (v.set i x).getD j 0 = v.getD j 0 := by
  induction v generalizing i j with
  | nil => simp
  | cons a l ih =>
    cases i with
    | zero =>
      cases j with
      | zero => exact absurd rfl h
      | succ m => simp
    | succ n =>
      cases j with
      | zero => simp
      | succ m =>
        simpa using ih n m (fun hnm => h (by rw [hnm]))

theorem sum_set (v : List ℚ) (i : Nat) (x : ℚ) (h : i < v.length) :
    (v.set i x).sum = v.sum - v.getD i 0 + x := by
  induction v generalizing i with
  | nil => simp at h
  | cons a l ih =>
    cases i with
    | zero =>
      simp only [List.set, List.sum_cons, List.getD_cons_zero]
      ring
    | succ n =>
      have h2 : n < l.length := by simpa using h
      simp only [List.set, List.sum_cons, List.getD_cons_succ, ih n h2]
      ring

theorem getD_replicate_zero (K t : Nat) :
    (List.replicate K (0 : ℚ)).getD t 0 = 0 := by
  induction K generalizing t with
  | zero => simp
  | succ n ih =>
    cases t with
    | zero => simp [List.replicate]
    | succ m => simp [List.replicate, ih m]

/-! Helper lemmas about the sparse-to-dense fill loop. -/

theorem fillRowAux_length (pairs : List (Nat × ℚ)) :
    ∀ v w, fillRowAux v pairs = some w → w.length = v.length := by
  induction pairs with
  | nil =>
    intro v w h
    simp only [fillRowAux, Option.some.injEq] at h
    rw [← h]
  | cons p rest ih =>
    intro v w h
    obtain ⟨tp, score⟩ := p
    simp only [fillRowAux] at h
    split at h
    · have hw := ih _ _ h
      simpa using hw
    · exact absurd h (by simp)

theorem fillRowAux_isSome (pairs : List (Nat × ℚ)) :
    ∀ v, (∀ p ∈ pairs, p.1 < v.length) → ∃ w, fillRowAux v pairs = some w := by
  induction pairs with
  | nil => intro v _; exact ⟨v, rfl⟩
  | cons p rest ih =>
    intro v hmem
    obtain ⟨tp, score⟩ := p
    have htp : tp < v.length := hmem (tp, score) (by simp)
    have hrest : ∀ q ∈ rest, q.1 < (v.set tp score).length := by
      intro q hq
      have := hmem q (by simp [hq])
      simpa using this
    obtain ⟨w, hw⟩ := ih (v.set tp score) hrest
    exact ⟨w, by simp [fillRowAux, htp, hw]⟩

theorem fillRowAux_getD_not_mem (pairs : List (Nat × ℚ)) :
    ∀ v w t, fillRowAux v pairs = some w → t ∉ pairs.map Prod.fst →
      w.getD t 0 = v.getD t 0 := by
  induction pairs with
  | nil =>
    intro v w t h _
    simp only [fillRowAux, Option.some.injEq] at h
    rw [← h]
  | cons p rest ih =>
    intro v w t h hnot
    obtain ⟨tp, score⟩ := p
    simp only [List.map_cons, List.mem_cons, not_or] at hnot
    simp only [fillRowAux] at h
    split at h
    · have hw := ih _ _ t h hnot.2
      rw [hw, getD_set_ne _ _ _ _ (fun he => hnot.1 he.symm)]
    · exact absurd h (by simp)

theorem fillRowAux_getD_mem (pairs : List (Nat × ℚ)) :
    ∀ v w t q, fillRowAux v pairs = some w →
      pairs.Pairwise (fun a b => a.1 ≠ b.1) → (t, q) ∈ pairs →
      w.getD t 0 = q := by
  induction pairs with
  | nil => intro v w t q _ _ hmem; simp at hmem
  | cons p rest ih =>
    intro v w t q h hpw hmem
    obtain ⟨tp, score⟩ := p
    simp only [fillRowAux] at h
    split at h
    · rename_i htp
      rcases List.mem_cons.mp hmem with heq | hrest
      · have het : t = tp := congrArg Prod.fst heq
        have hes : q = score := congrArg Prod.snd heq
        subst het
        subst hes
        have hnot : t ∉ rest.map Prod.fst := by
          intro hin
          obtain ⟨b, hb, hbfst⟩ := List.mem_map.mp hin
          exact (List.pairwise_cons.mp hpw).1 b hb (by rw [hbfst])
        have hw := fillRowAux_getD_not_mem rest _ _ t h hnot
        rw [hw, getD_set_self _ _ _ htp]
      · exact ih _ _ t q h (List.pairwise_cons.mp hpw).2 hrest
    · exact absurd h (by simp)

theorem fillRowAux_getD_bounds (pairs : List (Nat × ℚ)) :
    ∀ v w, fillRowAux v pairs = some w →
      (∀ p ∈ pairs, 0 ≤ p.2 ∧ p.2 ≤ 1) →
      (∀ t, 0 ≤ v.getD t 0 ∧ v.getD t 0 ≤ 1) →
      ∀ t, 0 ≤ w.getD t 0 ∧ w.getD t 0 ≤ 1 := by
  induction pairs with
  | nil =>
    intro v w h _ hv t
    simp only [fillRowAux, Option.some.injEq] at h
    rw [← h]
    exact hv t
  | cons p rest ih =>
    intro v w h hb hv
    obtain ⟨tp, score⟩ := p
    simp only [fillRowAux] at h
    split at h
    · rename_i htp
      refine ih _ _ h (fun q hq => hb q (by simp [hq])) ?_
      intro t
      by_cases het : tp = t
      · subst het
        rw [getD_set_self _ _ _ htp]
        exact hb (tp, score) (by simp)
      · rw [getD_set_ne _ _ _ _ het]
        exact hv t
    · exact absurd h (by simp)

theorem fillRowAux_sum (pairs : List (Nat × ℚ)) :
    ∀ v w, fillRowAux v pairs = some w →
      pairs.Pairwise (fun a b => a.1 ≠ b.1) →
      (∀ p ∈ pairs, v.getD p.1 0 = 0) →
      w.sum = v.sum + (pairs.map Prod.snd).sum := by
  induction pairs with
  | nil =>
    intro v w h _ _
    simp only [fillRowAux, Option.some.injEq] at h
    rw [← h]
    simp
  | cons p rest ih =>
    intro v w h hpw hz
    obtain ⟨tp, score⟩ := p
    simp only [fillRowAux] at h
    split at h
    · rename_i htp
      have hz0 : v.getD tp 0 = 0 := hz (tp, score) (by simp)
      have hzrest : ∀ q ∈ rest, (v.set tp score).getD q.1 0 = 0 := by
        intro q hq
        rw [getD_set_ne _ _ _ _ ((List.pairwise_cons.mp hpw).1 q hq)]
        exact hz q (by simp [hq])
      have hw := ih _ _ h (List.pairwise_cons.mp hpw).2 hzrest
      rw [hw, sum_set _ _ _ htp, hz0]
      simp only [List.map_cons, List.sum_cons]
      ring
    · exact absurd h (by simp)

/-! Helper lemmas about the row-appending loop over the corpus. -/

theorem optionMapList_length {α β : Type} (f : α → Option β) :
    ∀ xs ys, optionMapList f xs = some ys → ys.length = xs.length := by
  intro xs
  induction xs with
  | nil =>
    intro ys h
    simp only [optionMapList, Option.some.injEq] at h
    simp [← h]
  | cons a rest ih =>
    intro ys h
    simp only [optionMapList] at h
    split at h
    · rename_i b bs hfa hrec
      simp only [Option.some.injEq] at h
      rw [← h]
      simp [ih bs hrec]
    · exact absurd h (by simp)

theorem optionMapList_getD {α β : Type} (f : α → Option β) (dx : α) (dy : β) :
    ∀ xs ys i, optionMapList f xs = some ys → i < xs.length →
      f (xs.getD i dx) = some (ys.getD i dy) := by
  intro xs
  induction xs with
  | nil => intro ys i _ hi; simp at hi
  | cons a rest ih =>
    intro ys i h hi
    simp only [optionMapList] at h
    split at h
    · rename_i b bs hfa hrec
      simp only [Option.some.injEq] at h
      rw [← h]
      cases i with
      | zero => simpa using hfa
      | succ n =>
        have hn : n < rest.length := by simpa using hi
        simpa using ih bs n hrec hn
    · exact absurd h (by simp)

/-! Helper lemma for the filter loop of `getDataHayle`: on success it
returns exactly the nonempty tokenizations zipped with their labels. -/

theorem getDataLoop_eq (sents : List (List String)) :
    ∀ ts ds ls, getDataLoop sents ts = some (ds, ls) →
      ds = ((sents.zip ts).filter (fun p => !p.1.isEmpty)).map Prod.fst ∧
      ls = ((sents.zip ts).filter (fun p => !p.1.isEmpty)).map Prod.snd := by
  induction sents with
  | nil =>
    intro ts ds ls h
    simp only [getDataLoop, Option.some.injEq, Prod.mk.injEq] at h
    simp [← h.1, ← h.2]
  | cons s ss ih =>
    intro ts ds ls h
    cases ts with
    | nil =>
      simp only [getDataLoop] at h
      split at h
      · rename_i hs
        obtain ⟨h1, h2⟩ := ih [] ds ls h
        simp only [List.zip_nil_right] at h1 h2 ⊢
        exact ⟨h1, h2⟩
      · exact absurd h (by simp)
    | cons t ts2 =>
      simp only [getDataLoop] at h
      split at h
      · rename_i hs
        obtain ⟨h1, h2⟩ := ih ts2 ds ls h
        simp [hs, h1, h2]
      · rename_i hs
        split at h
        · rename_i r hrec
          simp only [Option.some.injEq, Prod.mk.injEq] at h
          obtain ⟨h1, h2⟩ := ih ts2 r.1 r.2 (by rw [hrec])
          rw [← h.1, ← h.2]
          simp [hs, h1, h2]
        · exact absurd h (by simp)

theorem optionMapList_isSome {α β : Type} (f : α → Option β) :
    ∀ xs, (∀ x ∈ xs, ∃ y, f x = some y) → ∃ ys, optionMapList f xs = some ys := by
  intro xs
  induction xs with
  | nil => intro _; exact ⟨[], rfl⟩
  | cons a rest ih =>
    intro hall
    obtain ⟨b, hb⟩ := hall a (by simp)
    obtain ⟨bs, hbs⟩ := ih (fun x hx => hall x (by simp [hx]))
    exact ⟨b :: bs, by simp [optionMapList, hb, hbs]⟩

theorem getD_mem_of_lt {γ : Type} (l : List γ) (i : Nat) (d : γ) (h : i < l.length) :
    l.getD i d ∈ l := by
  induction l generalizing i with
  | nil => simp at h
  | cons a rest ih =>
    cases i with
    | zero => simp
    | succ n =>
      simp only [List.getD_cons_succ]
      exact List.mem_cons_of_mem a (ih n (by simpa using h))

/-! Helper lemmas for the doc2vec tag counter. -/

theorem tagLoop_length (vocabData : List String) :
    ∀ i0, (tagLoop i0 vocabData).length = vocabData.length := by
  induction vocabData with
  | nil => intro i0; rfl
  | cons line rest ih => intro i0; simp [tagLoop, ih (i0 + 1)]

theorem tagLoop_getD (vocabData : List String) :
    ∀ i0 i, i < vocabData.length →
      (tagLoop i0 vocabData).getD i ⟨[], []⟩ =
        ⟨pySplit (vocabData.getD i ""), [i0 + i]⟩ := by
  induction vocabData with
  | nil => intro i0 i hi; simp at hi
  | cons line rest ih =>
    intro i0 i hi
    cases i with
    | zero => simp [tagLoop]
    | succ n =>
      have hn : n < rest.length := by simpa using hi
      simp only [tagLoop, List.getD_cons_succ, ih (i0 + 1) n hn]
      have : i0 + 1 + n = i0 + (n + 1) := by omega
      rw [this]

/-! Helper lemma for the tokenizer: every emitted run consists of token
characters only. -/

theorem tokenRuns_chars (s : List Char) :
    ∀ acc, (∀ c ∈ acc, isTokenChar c = true) →
      ∀ run ∈ tokenRuns s acc, ∀ c ∈ run, isTokenChar c = true := by
  induction s with
  | nil =>
    intro acc hacc run hrun c hc
    simp only [tokenRuns] at hrun
    split at hrun
    · simp at hrun
    · simp only [List.mem_singleton] at hrun
      subst hrun
      exact hacc c (List.mem_reverse.mp hc)
  | cons d rest ih =>
    intro acc hacc run hrun c hc
    simp only [tokenRuns] at hrun
    split at hrun
    · rename_i hd
      refine ih (d :: acc) ?_ run hrun c hc
      intro e he
      rcases List.mem_cons.mp he with he | he
      · rw [he]; exact hd
      · exact hacc e he
    · split at hrun
      · exact ih [] (by simp) run hrun c hc
      · rcases List.mem_cons.mp hrun with hrun | hrun
        · subst hrun
          exact hacc c (List.mem_reverse.mp hc)
        · exact ih [] (by simp) run hrun c hc

/-- C1: For every document of the corpus, the row `getLDATopicDistMatrix`
produces has exactly `num_topics` entries; assuming the model's
per-document inference returns a well-formed sparse distribution
(distinct topic ids below `num_topics`, proportions in `[0,1]`), the
entry at a returned topic's column equals that topic's returned
proportion, every column for which inference returned no pair is
exactly `0`, and every entry lies in `[0,1]`. -/
theorem C1_topic_row_entries {α : Type} (m : TrainedLda) (data : α)
    (corpus : List (List (Nat × Nat)))
    (hval : ∀ doc ∈ corpus, ∀ p ∈ m.docTopics doc,
      p.1 < m.num_topics ∧ 0 ≤ p.2 ∧ p.2 ≤ 1)
    (hdis : ∀ doc ∈ corpus, (m.docTopics doc).Pairwise (fun a b => a.1 ≠ b.1)) :
    ∃ M, getLDATopicDistMatrix m corpus data = some M ∧
      ∀ i, i < corpus.length →
        (M.getD i []).length = m.num_topics ∧
        (∀ t q, (t, q) ∈ m.docTopics (corpus.getD i []) →
          (M.getD i []).getD t 0 = q) ∧
        (∀ t, t < m.num_topics → t ∉ (m.docTopics (corpus.getD i [])).map Prod.fst →
          (M.getD i []).getD t 0 = 0) ∧
        (∀ t, 0 ≤ (M.getD i []).getD t 0 ∧ (M.getD i []).getD t 0 ≤ 1) := by
  have hsome : ∀ doc ∈ corpus, ∃ row,
      fillRow m.num_topics (m.docTopics doc) = some row := by
    intro doc hdoc
    refine fillRowAux_isSome _ _ ?_
    intro p hp
    simpa using (hval doc hdoc p hp).1
  obtain ⟨M, hM⟩ := optionMapList_isSome _ corpus hsome
  refine ⟨M, by simpa [getLDATopicDistMatrix] using hM, ?_⟩
  intro i hi
  have hdoc : corpus.getD i [] ∈ corpus := getD_mem_of_lt corpus i [] hi
  have hrow := optionMapList_getD _ [] [] corpus M i hM hi
  simp only [fillRow] at hrow
  refine ⟨by simpa using fillRowAux_length _ _ _ hrow, ?_, ?_, ?_⟩
  · intro t q htq
    exact fillRowAux_getD_mem _ _ _ t q hrow (hdis _ hdoc) htq
  · intro t _ hnot
    rw [fillRowAux_getD_not_mem _ _ _ t hrow hnot, getD_replicate_zero]
  · intro t
    refine fillRowAux_getD_bounds _ _ _ hrow
      (fun p hp => ⟨(hval _ hdoc p hp).2.1, (hval _ hdoc p hp).2.2⟩) ?_ t
    intro t2
    rw [getD_replicate_zero]
    norm_num

theorem C1_witness :
    (getLDATopicDistMatrix ldaW corpusW (0 : Nat)).isSome = true := by
  obtain ⟨M, hM, -⟩ := C1_topic_row_entries ldaW (0 : Nat) corpusW
    (by decide) (by decide)
  rw [hM]
  rfl

/-- C2: The matrix `getLDATopicDistMatrix` returns has exactly one row
per corpus document and row `i` is built (by the sparse-to-dense fill)
from corpus document `i`; and the corpus `buildModel` constructs has
one bag-of-words entry per input document. -/
theorem C2_matrix_rows_align :
    (∀ (α : Type) (m : TrainedLda) (corpus : List (List (Nat × Nat))) (data : α)
        (M : List (List ℚ)), getLDATopicDistMatrix m corpus data = some M →
      M.length = corpus.length ∧
      ∀ i, i < corpus.length →
        fillRow m.num_topics (m.docTopics (corpus.getD i [])) = some (M.getD i [])) ∧
    ∀ (g : GensimLib) (data : List (List String)),
      (buildModel g data).2.1.length = data.length := by
  constructor
  · intro α m corpus data M hM
    simp only [getLDATopicDistMatrix] at hM
    refine ⟨optionMapList_length _ corpus M hM, ?_⟩
    intro i hi
    simpa using optionMapList_getD _ [] [] corpus M i hM hi
  · intro g data
    simp [buildModel]

theorem C2_witness :
    ([[(1 : ℚ), 0]] : List (List ℚ)).length = corpusW.length :=
  (C2_matrix_rows_align.1 Nat ldaW corpusW 0 [[(1 : ℚ), 0]] (by decide)).1

/-- C7: If per-document inference returns pairs with distinct topic ids
and nonnegative proportions summing to at most 1, the corresponding row
of the matrix `getLDATopicDistMatrix` returns sums to at most 1: the
sparse-to-dense fill never increases the total mass. -/
theorem C7_row_mass_bounded {α : Type} (m : TrainedLda)
    (corpus : List (List (Nat × Nat))) (data : α) (M : List (List ℚ)) (i : Nat)
    (hM : getLDATopicDistMatrix m corpus data = some M) (hi : i < corpus.length)
    (hdis : (m.docTopics (corpus.getD i [])).Pairwise (fun a b => a.1 ≠ b.1))
    (hpos : ∀ p ∈ m.docTopics (corpus.getD i []), 0 ≤ p.2)
    (hsum : ((m.docTopics (corpus.getD i [])).map Prod.snd).sum ≤ 1) :
    (M.getD i []).sum ≤ 1 := by
  simp only [getLDATopicDistMatrix] at hM
  have hrow := optionMapList_getD _ [] [] corpus M i hM hi
  simp only [fillRow] at hrow
  have hzero : ∀ p ∈ m.docTopics (corpus.getD i []),
      (List.replicate m.num_topics (0 : ℚ)).getD p.1 0 = 0 :=
    fun p _ => getD_replicate_zero _ _
  rw [fillRowAux_sum _ _ _ hrow hdis hzero]
  have hz : (List.replicate m.num_topics (0 : ℚ)).sum = 0 := by simp
  rw [hz, zero_add]
  exact hsum

theorem C7_witness :
    (([[(1 : ℚ), 0]] : List (List ℚ)).getD 0 []).sum ≤ 1 :=
  C7_row_mass_bounded ldaW corpusW (0 : Nat) [[(1 : ℚ), 0]] 0
    (by decide) (by decide) (by decide) (by decide) (by simp [ldaW, corpusW])

/-- C10: `getLDATopicDistMatrix` never reads its `data` argument: for
any two values of any types in that position, over the same model and
corpus, the result is identical. -/
theorem C10_data_argument_unread {α β : Type} (m : TrainedLda)
    (corpus : List (List (Nat × Nat))) (d1 : α) (d2 : β) :
    getLDATopicDistMatrix m corpus d1 = getLDATopicDistMatrix m corpus d2 := rfl

/-- C3: `getDataHayle` drops each empty tokenization together with its
label, so the returned data and (remapped) label sequences have equal
length and label `j` belongs to the `j`-th surviving original document;
on the corpus ["cat dog cat", "car engine wheel", ""] exactly 2
documents survive, their labels are those of the original 1st and 2nd
entries, and the topic matrix built from that filtered corpus has
exactly 2 rows. -/
theorem C3_filter_label_lockstep :
    (∀ (remap : Int → Int) (dats : Dats) (ds : List (List String)) (ls : List Int),
      getDataHayle remap dats = some (ds, ls) →
        ds.length = ls.length ∧
        ds = (((sent_to_words dats.data).zip dats.target).filter
          (fun p => !p.1.isEmpty)).map Prod.fst ∧
        ls = create_new_labels remap
          ((((sent_to_words dats.data).zip dats.target).filter
            (fun p => !p.1.isEmpty)).map Prod.snd)) ∧
    (∀ (remap : Int → Int) (t1 t2 t3 : Int),
      getDataHayle remap ⟨["cat dog cat", "car engine wheel", ""], [t1, t2, t3]⟩ =
        some ([["cat", "dog", "cat"], ["car", "engine", "wheel"]],
          [remap t1, remap t2])) ∧
    ∀ (d : Dict) (m : TrainedLda) (M : List (List ℚ)),
      getLDATopicDistMatrix m
        ([["cat", "dog", "cat"], ["car", "engine", "wheel"]].map d.doc2bow)
        (0 : Nat) = some M →
      M.length = 2 := by
  refine ⟨?_, ?_, ?_⟩
  · intro remap dats ds ls h
    simp only [getDataHayle] at h
    split at h
    · rename_i r hrec
      obtain ⟨ds0, ls0⟩ := r
      simp only [Option.some.injEq, Prod.mk.injEq] at h
      obtain ⟨hds, hls⟩ := h
      obtain ⟨h1, h2⟩ := getDataLoop_eq _ _ _ _ hrec
      subst hds
      subst hls
      subst h1
      subst h2
      refine ⟨?_, rfl, rfl⟩
      simp [create_new_labels]
    · exact absurd h (by simp)
  · intro remap t1 t2 t3
    rfl
  · intro d m M h
    simp only [getLDATopicDistMatrix] at h
    simpa using optionMapList_length _ _ M h

theorem C3_witness :
    ([["cat", "dog", "cat"], ["car", "engine", "wheel"]] : List (List String)).length =
      ([0, 1] : List Int).length :=
  (C3_filter_label_lockstep.1 (fun t => t)
    ⟨["cat dog cat", "car engine wheel", ""], [0, 1, 2]⟩
    [["cat", "dog", "cat"], ["car", "engine", "wheel"]] [0, 1] (by rfl)).1

/-- C4: the embedding-trainer script builds one tagged document per
corpus line, each tagged with its 0-based sequential position; its
trace initializes the model with `vector_size=5` and `min_count=5`,
then saves it to the fixed absolute path and immediately loads it back
from that same path. -/
theorem C4_doc2vec_script :
    (∀ (vocabData : List String),
      (create_tagged_documents vocabData).length = vocabData.length ∧
      ∀ i, i < vocabData.length →
        (create_tagged_documents vocabData).getD i ⟨[], []⟩ =
          ⟨pySplit (vocabData.getD i ""), [i]⟩) ∧
    ∀ (vocabData : List String), ∃ path : String,
      doc2vecScript vocabData =
        [D2VOp.init 5 5 20,
         D2VOp.buildVocab (create_tagged_documents vocabData),
         D2VOp.save path, D2VOp.load path] ∧
      path = "C:\\Users\\Zacha\\PycharmProjects\\dv_midterm\\d2v.model" := by
  constructor
  · intro vocabData
    refine ⟨tagLoop_length vocabData 0, ?_⟩
    intro i hi
    simpa using tagLoop_getD vocabData 0 i hi
  · intro vocabData
    exact ⟨_, rfl, rfl⟩

theorem C4_witness :
    (create_tagged_documents ["hello world", "foo"]).length = 2 :=
  (C4_doc2vec_script.1 ["hello world", "foo"]).1

/-- C5: `sent_to_words` maps each raw document string through the
tokenizer; every produced token is an alphabetic/underscore run of
length 2 to 15 (punctuation stripped); and tokenizing "Dogs, running!"
yields exactly ["dogs", "running"]. -/
theorem C5_tokenizer_behavior :
    (∀ docs, sent_to_words docs = docs.map simple_preprocess) ∧
    (∀ s t, t ∈ simple_preprocess s →
      2 ≤ t.length ∧ t.length ≤ 15 ∧ ∀ c ∈ t.data, isTokenChar c = true) ∧
    simple_preprocess "Dogs, running!" = ["dogs", "running"] := by
  refine ⟨fun docs => rfl, ?_, by rfl⟩
  intro s t ht
  simp only [simple_preprocess, List.mem_map] at ht
  obtain ⟨cs, hcs, hmk⟩ := ht
  have hfilter := List.of_mem_filter hcs
  have hmem := List.mem_of_mem_filter hcs
  simp only [keepToken, Bool.and_eq_true, decide_eq_true_eq] at hfilter
  have hchars := tokenRuns_chars _ [] (by simp) cs hmem
  subst hmk
  refine ⟨?_, ?_, ?_⟩
  · exact hfilter.1.1
  · exact hfilter.1.2
  · intro c hc
    exact hchars c hc

theorem C5_witness :
    simple_preprocess "Dogs, running!" = ["dogs", "running"] :=
  C5_tokenizer_behavior.2.2

/-- C6: `buildModel` trains with exactly topic count 12, random seed
100, pass count 10, chunk size 100 and automatic prior adaptation, and
returns the trained model together with the term-document-frequency
corpus and the vocabulary it built from its input. -/
theorem C6_build_hyperparameters (g : GensimLib) (data : List (List String)) :
    ∃ p : LdaParams,
      buildModel g data =
        (g.trainLda p (data.map (g.dictionaryOf data).doc2bow) (g.dictionaryOf data),
         data.map (g.dictionaryOf data).doc2bow,
         g.dictionaryOf data) ∧
      p.num_topics = 12 ∧ p.random_state = 100 ∧ p.passes = 10 ∧
      p.chunksize = 100 ∧ p.alphaAuto = true :=
  ⟨⟨12, 100, 1, 100, 10, true, true⟩, rfl, rfl, rfl, rfl, rfl, rfl⟩

/-- C8: two runs of `buildModel` on equal tokenized corpora in equal
order yield identical results, and the training call always receives
the fixed random seed 100.  (The embedding takes the modeling library's
documented seed-determinism as given: `trainLda` is a function of the
corpus, the vocabulary and the parameters, with no hidden state.) -/
theorem C8_training_deterministic (g : GensimLib) (d1 d2 : List (List String))
    (h : d1 = d2) :
    buildModel g d1 = buildModel g d2 ∧
    ∃ p : LdaParams,
      (buildModel g d1).1 =
        g.trainLda p (d1.map (g.dictionaryOf d1).doc2bow) (g.dictionaryOf d1) ∧
      p.random_state = 100 := by
  subst h
  exact ⟨rfl, ⟨12, 100, 1, 100, 10, true, true⟩, rfl, rfl⟩

theorem C8_witness :
    buildModel gensimW [["hello"]] = buildModel gensimW [["hello"]] :=
  (C8_training_deterministic gensimW [["hello"]] [["hello"]] rfl).1

/-- C9: `sentences_chart` draws each document's border rectangle with
`mycolors[dominant topic id]` over the 10-entry TABLEAU color list,
with no modulo: when the dominant topic id is at most 9 the lookup
yields a color, and when it is 10 or more (possible, since the model is
trained with 12 topics) the lookup is out of range and raises an
uncaught IndexError. -/
theorem C9_border_color_index (topic_percs : List (Nat × ℚ))
    (p : Nat × ℚ) (rest : List (Nat × ℚ))
    (hsort : sortDesc topic_percs = p :: rest) :
    tableauColors.length = 10 ∧
    (p.1 ≤ 9 → ∃ c, sentencesChartBorderColor tableauColors topic_percs = some c) ∧
    (10 ≤ p.1 → sentencesChartBorderColor tableauColors topic_percs = none) := by
  have h10 : tableauColors.length = 10 := rfl
  refine ⟨h10, ?_, ?_⟩
  · intro hp
    have hlt : p.1 < tableauColors.length := by rw [h10]; omega
    simp only [sentencesChartBorderColor, hsort]
    exact ⟨tableauColors.get ⟨p.1, hlt⟩, List.get?_eq_get hlt⟩
  · intro hp
    have hge : tableauColors.length ≤ p.1 := by rw [h10]; omega
    simp only [sentencesChartBorderColor, hsort]
    exact List.get?_eq_none.mpr hge

theorem C9_witness :
    sentencesChartBorderColor tableauColors [(10, (1 : ℚ)), (3, 0)] = none :=
  (C9_border_color_index [(10, (1 : ℚ)), (3, 0)] (10, 1) [(3, 0)] (by decide)).2.2
    (by omega)
